import Mathlib

/-!
Verification development for the Gitee-issues-to-Jekyll article generator
(`_posts/generate_articles.py`).  The Python program is shallowly embedded:
pure string transformations become Lean functions on `String` / `List Char`,
the HTTP layer becomes an oracle environment, and the filesystem becomes an
explicit association list from filenames to contents.
-/

/-! ## Character classes used by `sanitize_filename` -/

/-- The character class of `re.sub(r'[<>:"/\\|?*]', '', title)`. -/
def badChars : List Char := ['<', '>', ':', '"', '/', '\\', '|', '?', '*']

/-- Membership in the removed character class. -/
def isBad (c : Char) : Bool := badChars.contains c

/-- The characters matched by Python's `\s` (and stripped by `str.strip()`)
on `str` patterns: ASCII whitespace plus the Unicode whitespace code points. -/
def pyWsChars : List Char :=
  [' ', '\t', '\n', '\r', '\x0b', '\x0c',
   '\x1c', '\x1d', '\x1e', '\x1f', '\x85', '\xa0',
   '\u1680', '\u2000', '\u2001', '\u2002', '\u2003', '\u2004', '\u2005',
   '\u2006', '\u2007', '\u2008', '\u2009', '\u200a',
   '\u2028', '\u2029', '\u202f', '\u205f', '\u3000']

/-- Whether a character counts as whitespace for `\s` / `str.strip()`. -/
def isPyWs (c : Char) : Bool := pyWsChars.contains c

/-! ## The four stages of `sanitize_filename` -/

/-- `re.sub(r'[<>:"/\\|?*]', '', title)`: drop every unsafe character. -/
def removeBad (l : List Char) : List Char := l.filter (fun c => !isBad c)

/-- `re.sub(r'\s+', '-', s)`, written with an explicit inside-a-run flag so
that each maximal run of whitespace becomes one `-`. -/
def squashWsAux : Bool → List Char → List Char
  | _, [] => []
  | inRun, c :: rest =>
    if isPyWs c then
      if inRun then squashWsAux true rest else '-' :: squashWsAux true rest
    else c :: squashWsAux false rest

/-- `re.sub(r'\s+', '-', s)`: each maximal run of whitespace becomes one `-`. -/
def squashWs (l : List Char) : List Char := squashWsAux false l

/-- `re.sub(r'-+', '-', s)`, written with an explicit inside-a-run flag so
that each maximal run of hyphens becomes one `-`. -/
def squashHyAux : Bool → List Char → List Char
  | _, [] => []
  | inRun, c :: rest =>
    if c = '-' then
      if inRun then squashHyAux true rest else '-' :: squashHyAux true rest
    else c :: squashHyAux false rest

/-- `re.sub(r'-+', '-', s)`: each maximal run of hyphens becomes one `-`. -/
def squashHyphens (l : List Char) : List Char := squashHyAux false l

/-- `s.strip('-')`: drop leading and trailing hyphens. -/
def stripHyphens (l : List Char) : List Char :=
  ((l.dropWhile (fun c => c = '-')).reverse.dropWhile (fun c => c = '-')).reverse

/-! ## Decimal rendering (`str(n)` and zero-padded `strftime` fields) -/

/-- The decimal digit character for `n % 10`-style values below ten. -/
def digitChar (n : Nat) : Char :=
  if n = 0 then '0' else if n = 1 then '1' else if n = 2 then '2'
  else if n = 3 then '3' else if n = 4 then '4' else if n = 5 then '5'
  else if n = 6 then '6' else if n = 7 then '7' else if n = 8 then '8' else '9'

/-- Decimal digits, fuelled so the recursion is structural; any fuel above
the value itself is enough. -/
def natDigitsF : Nat → Nat → List Char
  | 0, n => [digitChar n]
  | fuel + 1, n =>
    if n < 10 then [digitChar n]
    else natDigitsF fuel (n / 10) ++ [digitChar (n % 10)]

/-- Decimal digits of a natural number, most significant first. -/
def natDigits (n : Nat) : List Char := natDigitsF n n

/-- `str(n)` for a natural number. -/
def natStr (n : Nat) : String := String.mk (natDigits n)

/-- A decimal field zero-padded on the left to width `w` (`%Y`, `%m`, ...). -/
def pad (w n : Nat) : List Char :=
  List.replicate (w - (natDigits n).length) '0' ++ natDigits n

/-! ## `datetime.datetime.now()` as seen by the fallback filename -/

/-- The clock reading taken by `datetime.datetime.now()` in
`sanitize_filename`'s fallback branch. -/
structure PyTime where
  year : Nat
  month : Nat
  day : Nat
  hour : Nat
  minute : Nat
  second : Nat
deriving DecidableEq

/-- `now.strftime('%Y%m%d-%H%M%S')`. -/
def tsCompact (t : PyTime) : List Char :=
  pad 4 t.year ++ pad 2 t.month ++ pad 2 t.day ++
    '-' :: (pad 2 t.hour ++ pad 2 t.minute ++ pad 2 t.second)

/-! ## `sanitize_filename` -/

/-- The pure part of `sanitize_filename`: unsafe-character removal, whitespace
squashing, hyphen squashing and hyphen stripping, in the source's order. -/
def sanitizeCore (title : String) : List Char :=
  stripHyphens (squashHyphens (squashWs (removeBad title.toList)))

/-- `sanitize_filename(title)`, with `now` the clock reading used by the
empty-result fallback `f"article-{now.strftime('%Y%m%d-%H%M%S')}"`. -/
def sanitize_filename (now : PyTime) (title : String) : String :=
  if (sanitizeCore title).isEmpty then "article-" ++ String.mk (tsCompact now)
  else String.mk (sanitizeCore title)

/-! ## `process_markdown`: the regex `!\[.*?\]\(.*?\)` and line handling -/

/-- Scan for the first `](` adjacency (the lazy `.*?\]\(` step of the image
regex) and return the remainder after it. -/
def afterBrkParen : List Char → Option (List Char)
  | [] => none
  | c :: rest =>
    if c = ']' ∧ rest.head? = some '(' then some rest.tail
    else afterBrkParen rest

/-- Scan for the first `)` (the lazy `.*?\)` step of the image regex) and
return the remainder after it. -/
def afterParen : List Char → Option (List Char)
  | [] => none
  | c :: rest => if c = ')' then some rest else afterParen rest

/-- Match the regex `!\[.*?\]\(.*?\)` at the start of `l` (lazy semantics,
as the `re` engine resolves it); on success return the text after the match. -/
def matchImage : List Char → Option (List Char)
  | c1 :: c2 :: rest =>
    if c1 = '!' ∧ c2 = '[' then (afterBrkParen rest).bind afterParen else none
  | _ => none

/-- `re.sub(r'!\[.*?\]\(.*?\)', '', line)` with explicit fuel so the
recursion is structural; the line's length is always enough fuel, because
every match consumes at least one character. -/
def subImagesF : Nat → List Char → List Char
  | 0, l => l
  | _ + 1, [] => []
  | fuel + 1, c :: rest =>
    match matchImage (c :: rest) with
    | some after => subImagesF fuel after
    | none => c :: subImagesF fuel rest

/-- `re.sub(r'!\[.*?\]\(.*?\)', '', line)`: delete each leftmost
non-overlapping match, resuming the scan after the deleted text. -/
def subImages (l : List Char) : List Char := subImagesF l.length l

/-- Whether the image regex matches at some position of the line. -/
def hasImage : List Char → Bool
  | [] => false
  | c :: rest => (matchImage (c :: rest)).isSome || hasImage rest

/-- The line contains a substring of the shape `![` ... `](` ... `)`. -/
def containsImage (l : List Char) : Prop :=
  ∃ p a b q, l = p ++ '!' :: '[' :: (a ++ ']' :: '(' :: (b ++ ')' :: q))

/-- `s.split('\n')` on character lists. -/
def splitNl : List Char → List (List Char)
  | [] => [[]]
  | c :: rest =>
    if c = '\n' then [] :: splitNl rest
    else
      match splitNl rest with
      | [] => [[c]]
      | l :: ls => (c :: l) :: ls

/-- `'\n'.join(lines)` on character lists. -/
def joinNl : List (List Char) → List Char
  | [] => []
  | [l] => l
  | l :: ls => l ++ '\n' :: joinNl ls

/-- `process_markdown(markdown_content)`: split into lines, delete the inline
image matches from each line, and re-join with newlines; the empty string is
returned unchanged by the leading falsiness guard. -/
def process_markdown (s : String) : String :=
  if s = "" then ""
  else String.mk (joinNl ((splitNl s.toList).map subImages))

/-! ## `datetime.fromisoformat` / `strftime` -/

/-- A parsed timezone-aware (or naive, when `tz = none`) datetime value.
The offset is (negative?, hours, minutes). -/
structure PyDateTime where
  year : Nat
  month : Nat
  day : Nat
  hour : Nat
  minute : Nat
  second : Nat
  tz : Option (Bool × Nat × Nat)
deriving DecidableEq

/-- The value of a decimal digit character. -/
def digitVal (c : Char) : Option Nat :=
  if c.isDigit then some (c.toNat - 48) else none

/-- Read exactly two decimal digits. -/
def parse2 : List Char → Option (Nat × List Char)
  | a :: b :: rest =>
    match digitVal a, digitVal b with
    | some x, some y => some (10 * x + y, rest)
    | _, _ => none
  | _ => none

/-- Read exactly four decimal digits. -/
def parse4 (l : List Char) : Option (Nat × List Char) := do
  let (a, l1) ← parse2 l
  let (b, l2) ← parse2 l1
  some (100 * a + b, l2)

/-- Require a specific character. -/
def expectChar (c : Char) : List Char → Option (List Char)
  | x :: rest => if x = c then some rest else none
  | [] => none

/-- Parse the optional trailing `±HH:MM` offset; the input must be consumed
entirely. -/
def parseTz : List Char → Option (Option (Bool × Nat × Nat))
  | [] => some none
  | c :: rest =>
    if c = '+' ∨ c = '-' then
      match parse2 rest with
      | some (oh, r1) =>
        match expectChar ':' r1 with
        | some r2 =>
          match parse2 r2 with
          | some (om, []) =>
            if oh < 24 ∧ om < 60 then some (some (c = '-', oh, om)) else none
          | _ => none
        | none => none
      | none => none
    else none

/-- `datetime.datetime.fromisoformat(s)` for the `YYYY-MM-DD*HH:MM:SS[±HH:MM]`
shapes this program feeds it; `none` models the `ValueError` raised on
malformed input. -/
def fromisoformat (s : String) : Option PyDateTime := do
  let l := s.toList
  let (y, l) ← parse4 l
  let l ← expectChar '-' l
  let (mo, l) ← parse2 l
  let l ← expectChar '-' l
  let (d, l) ← parse2 l
  let l ← (match l with | _ :: rest => some rest | [] => none : Option (List Char))
  let (h, l) ← parse2 l
  let l ← expectChar ':' l
  let (mi, l) ← parse2 l
  let l ← expectChar ':' l
  let (sec, l) ← parse2 l
  let tzv ← parseTz l
  if 1 ≤ mo ∧ mo ≤ 12 ∧ 1 ≤ d ∧ d ≤ 31 ∧ h ≤ 23 ∧ mi ≤ 59 ∧ sec ≤ 59 then
    some ⟨y, mo, d, h, mi, sec, tzv⟩
  else none

/-- `s.replace('Z', '+00:00')`: every occurrence of the one-character pattern
`Z` becomes `+00:00`. -/
def replaceZ (s : String) : String :=
  String.mk (List.flatten (s.toList.map fun c =>
    if c = 'Z' then ['+', '0', '0', ':', '0', '0'] else [c]))

/-- `d.strftime('%Y-%m-%d')`. -/
def strftimeDate (t : PyDateTime) : String :=
  String.mk (pad 4 t.year ++ '-' :: (pad 2 t.month ++ '-' :: pad 2 t.day))

/-- The `%z` field: empty for a naive datetime, else `±HHMM`. -/
def fmtOffset : Option (Bool × Nat × Nat) → String
  | none => ""
  | some (neg, oh, om) =>
    (if neg then "-" else "+") ++ String.mk (pad 2 oh ++ pad 2 om)

/-- `d.strftime('%Y-%m-%d %H:%M:%S %z')`. -/
def strftimeFull (t : PyDateTime) : String :=
  String.mk (pad 4 t.year ++ '-' :: (pad 2 t.month ++ '-' :: pad 2 t.day)) ++
    " " ++
    String.mk (pad 2 t.hour ++ ':' :: (pad 2 t.minute ++ ':' :: pad 2 t.second)) ++
    " " ++ fmtOffset t.tz

/-! ## Issue records and `convert_to_jekyll_post` -/

/-- One issue JSON object.  `body = none` models an absent key,
`body = some none` a present key holding JSON `null`, and
`body = some (some s)` a string body; likewise `updated_at = none` models an
absent key (defaulted to `created_at` by the code). -/
structure Issue where
  number : Option Nat
  title : String
  body : Option (Option String)
  created_at : String
  updated_at : Option String
deriving DecidableEq

/-- `issue.get('body', '') or ''`: absent, `null` and falsy (empty) bodies all
collapse to the empty string. -/
def effBody (i : Issue) : String :=
  match i.body with
  | some (some s) => s
  | _ => ""

/-- `issue.get('number', '')` as interpolated into the template. -/
def numStr (i : Issue) : String :=
  match i.number with
  | some n => natStr n
  | none => ""

/-- `not body.strip()`: the string is empty or entirely whitespace. -/
def pyBlank (s : String) : Bool := s.toList.all isPyWs

/-- The fixed substitute content used when the body is blank. -/
def placeholder (title : String) : String :=
  "**" ++ title ++ "**\n\n> 此文章来自Gitee Issue，内容为空，已自动使用标题作为内容。"

/-- The front-matter-plus-original-link preamble of the generated article. -/
def mkFrontMatter (i : Issue) (cd ud : PyDateTime) : String :=
  "---\ntitle: \"" ++ i.title ++ "\"\ndate: " ++ strftimeFull cd ++
    "\nlast_modified_at: " ++ strftimeFull ud ++
    "\ncategories: [Gitee Issues]\ntags: [" ++ numStr i ++
    "]  # 使用issue编号作为tag\ncomments: true\n---\n\n## 原始链接\n\n本文档从Gitee Issue自动生成，原文地址：[Issue #" ++
    numStr i ++ "](https://gitee.com/aywlzj/aywlzj.gitee.io/issues/" ++
    numStr i ++ ")\n\n---\n\n"

/-- `convert_to_jekyll_post(issue)` split into its three pieces
(filename, front matter, body section); `none` models the uncaught
`ValueError` on a malformed timestamp.  `now` is the clock reading consumed
by `sanitize_filename`'s fallback. -/
def convertParts (now : PyTime) (i : Issue) : Option (String × String × String) := do
  let cd ← fromisoformat (replaceZ i.created_at)
  let ud ← fromisoformat (replaceZ (i.updated_at.getD i.created_at))
  let safe_title := sanitize_filename now i.title
  let filename := strftimeDate cd ++ "-" ++ safe_title ++ ".md"
  let body := effBody i
  let content := if pyBlank body then placeholder i.title else process_markdown body
  some (filename, mkFrontMatter i cd ud, content)

/-- `convert_to_jekyll_post(issue)`: the returned (filename, article content)
pair, the article being front matter plus body section. -/
def convert_to_jekyll_post (now : PyTime) (i : Issue) : Option (String × String) :=
  (convertParts now i).map fun p => (p.1, p.2.1 ++ p.2.2)

/-! ## Orchestration: fetcher oracles, filesystem state, `generate_articles` -/

/-- The process environment: the clock, the two HTTP endpoints (an `Except`
carries a caught `RequestException`'s message) and the writability of each
destination file (`some msg` models an I/O error raised by `open`/`write`). -/
structure Env where
  now : PyTime
  listResult : Except String (List Issue)
  detailResult : Nat → Except String Issue
  writeErr : String → Option String

/-- Process state: destination-directory contents (filename ↦ bytes), the
`generated_count` counter, and everything printed so far, in order. -/
structure St where
  files : List (String × String)
  count : Nat
  out : List String
deriving DecidableEq

/-- `"=" * 50`. -/
def eqLine : String := String.mk (List.replicate 50 '=')

/-- `self.posts_dir` as printed in the final summary. -/
def posts_dir : String := "_posts"

/-- `get_all_issues()`: the listing request, its log lines, and the
empty-list degradation on a caught `RequestException`. -/
def get_all_issues (env : Env) : List Issue × List String :=
  let pre := ["正在获取 aywlzj/aywlzj.gitee.io 的所有issues..."]
  match env.listResult with
  | .ok issues => (issues, pre ++ ["成功获取 " ++ natStr issues.length ++ " 个issues"])
  | .error e => ([], pre ++ ["获取issues失败: " ++ e])

/-- `get_issue_content(issue_number)`: the detail request, returning `none`
(Python `None`) with a log line on a caught `RequestException`. -/
def get_issue_content (env : Env) (n : Nat) : Option Issue × List String :=
  match env.detailResult n with
  | .ok issue => (some issue, [])
  | .error e => (none, ["获取issue " ++ natStr n ++ " 内容失败: " ++ e])

/-- `open(filepath, 'w').write(content)`: stores (or overwrites) the binding
for `k`. -/
def setFile (files : List (String × String)) (k v : String) : List (String × String) :=
  files.filter (fun p => p.1 ≠ k) ++ [(k, v)]

/-- `issue['title'][:50]`. -/
def take50 (s : String) : String := String.mk (s.toList.take 50)

/-- The body of the `for issue in issues` loop for one record.  The flag is
`false` when an uncaught exception (malformed timestamp) aborts the run. -/
def processIssue (env : Env) (st : St) (issue : Issue) : St × Bool :=
  match issue.number with
  | none => (st, true)
  | some n =>
    if n = 0 then (st, true)
    else
      let st1 : St :=
        { st with out := st.out ++
            ["\n📝 处理Issue #" ++ natStr n ++ ": " ++ take50 issue.title ++ "..."] }
      let fetched := get_issue_content env n
      let st2 : St := { st1 with out := st1.out ++ fetched.2 }
      match fetched.1 with
      | none => (st2, true)
      | some detail =>
        match convert_to_jekyll_post env.now detail with
        | none => (st2, false)
        | some fc =>
          if (List.lookup fc.1 st2.files).isSome then
            ({ st2 with out := st2.out ++ ["⚠️  文章已存在，跳过: " ++ fc.1] }, true)
          else
            match env.writeErr fc.1 with
            | none =>
              ({ files := setFile st2.files fc.1 fc.2,
                 count := st2.count + 1,
                 out := st2.out ++ ["✅ 成功生成文章: " ++ fc.1] }, true)
            | some e =>
              ({ st2 with out := st2.out ++ ["❌ 保存文章失败 " ++ fc.1 ++ ": " ++ e] }, true)

/-- The whole `for issue in issues` loop; stops early on an uncaught
exception. -/
def runLoop (env : Env) : List Issue → St → St × Bool
  | [], st => (st, true)
  | i :: rest, st =>
    let r := processIssue env st i
    if r.2 then runLoop env rest r.1 else (r.1, false)

/-- Lexicographic comparison of character lists by code point, the order in
which Python compares the globbed path strings. -/
def lexLe : List Char → List Char → Bool
  | [], _ => true
  | _ :: _, [] => false
  | a :: as, b :: bs =>
    if a.toNat < b.toNat then true
    else if a.toNat = b.toNat then lexLe as bs
    else false

/-- String comparison as Python compares the globbed paths. -/
def strLe (a b : String) : Bool := lexLe a.toList b.toList

/-- Insert into an already sorted list, keeping it sorted. -/
def insertLe (x : String) : List String → List String
  | [] => [x]
  | y :: ys => if strLe y x then y :: insertLe x ys else x :: y :: ys

/-- A stable insertion sort: the model of Python's `sorted`. -/
def insertionSort : List String → List String
  | [] => []
  | x :: xs => insertLe x (insertionSort xs)

/-- Whether a name matches the glob pattern `*.md`. -/
def isMdName (n : String) : Bool :=
  match n.toList.reverse with
  | 'd' :: 'm' :: '.' :: _ => true
  | _ => false

/-- The names matched by `self.posts_dir.glob("*.md")`. -/
def mdNames (files : List (String × String)) : List String :=
  (files.map Prod.fst).filter isMdName

/-- `sorted(md_files)`. -/
def sortedMd (files : List (String × String)) : List String :=
  insertionSort (mdNames files)

/-- The final article enumeration block (printed only when non-empty). -/
def mdListing (files : List (String × String)) : List String :=
  let names := sortedMd files
  if names.isEmpty then []
  else ("\n📚 当前目录下的所有文章 (" ++ natStr names.length ++ " 篇):")
    :: names.map (fun n => "  - " ++ n)

/-- `generate_articles()` run against initial directory contents `fs0`.  The
flag is `false` when the run died on an uncaught exception (in which case no
summary is printed and the state is what had accumulated). -/
def generate_articles (env : Env) (fs0 : List (String × String)) : St × Bool :=
  let st0 : St :=
    { files := fs0, count := 0,
      out := ["🚀 开始从Gitee Issues生成Jekyll文章...", eqLine] }
  let fetched := get_all_issues env
  let st1 : St := { st0 with out := st0.out ++ fetched.2 }
  if fetched.1.isEmpty then
    ({ st1 with out := st1.out ++ ["没有获取到任何issues，程序退出"] }, true)
  else
    let r := runLoop env fetched.1 st1
    if r.2 then
      ({ r.1 with out := r.1.out ++
          ["\n" ++ eqLine,
           "🎉 文章生成完成！共生成 " ++ natStr r.1.count ++ " 篇文章",
           "📁 文章保存位置: " ++ posts_dir] ++ mdListing r.1.files }, true)
    else r

/-! ## Auxiliary predicates used by the statements -/

/-- The ten decimal digit characters. -/
def digitList : List Char := ['0', '1', '2', '3', '4', '5', '6', '7', '8', '9']

/-- No two adjacent hyphens. -/
def noDouble : List Char → Bool
  | [] => true
  | [_] => true
  | a :: b :: rest => !(a == '-' && b == '-') && noDouble (b :: rest)

/-- The invariant holding of every `sanitize_filename` output: no unsafe
character, no whitespace, no hyphen run, and no leading or trailing hyphen. -/
def goodOut (l : List Char) : Prop :=
  (∀ c ∈ l, isBad c = false ∧ isPyWs c = false) ∧
  noDouble l = true ∧ l.head? ≠ some '-' ∧ l.getLast? ≠ some '-'

/-! ## Concrete fixtures used by the witnesses -/

/-- A fixed clock reading. -/
def t0 : PyTime := ⟨2026, 1, 1, 12, 0, 0⟩

/-- The round-trip record of the spec's scenario. -/
def issue42 : Issue :=
  ⟨some 42, "Hello World", some (some "some text"),
   "2023-01-15T10:30:00Z", some "2023-01-16T08:00:00Z"⟩

/-- `issue42` with a whitespace-only body. -/
def issueBlank : Issue := { issue42 with body := some (some " ") }

/-- `issue42` with a present-but-`null` body. -/
def issueNull : Issue := { issue42 with body := some none }

/-- The front matter generated for `issue42` (and for its blank/null-body
variants, which share its metadata). -/
def fm42 : String :=
  "---\ntitle: \"Hello World\"\ndate: 2023-01-15 10:30:00 +0000\nlast_modified_at: 2023-01-16 08:00:00 +0000\ncategories: [Gitee Issues]\ntags: [42]  # \u4f7f\u7528issue\u7f16\u53f7\u4f5c\u4e3atag\ncomments: true\n---\n\n## \u539f\u59cb\u94fe\u63a5\n\n\u672c\u6587\u6863\u4eceGitee Issue\u81ea\u52a8\u751f\u6210\uff0c\u539f\u6587\u5730\u5740\uff1a[Issue #42](https://gitee.com/aywlzj/aywlzj.gitee.io/issues/42)\n\n---\n\n"

/-- The placeholder body generated for a blank-bodied `Hello World` issue. -/
def ph42 : String :=
  "**Hello World**\n\n> \u6b64\u6587\u7ae0\u6765\u81eaGitee Issue\uff0c\u5185\u5bb9\u4e3a\u7a7a\uff0c\u5df2\u81ea\u52a8\u4f7f\u7528\u6807\u9898\u4f5c\u4e3a\u5185\u5bb9\u3002"

/-- An environment whose listing succeeds with zero records. -/
def envEmptyList : Env := ⟨t0, .ok [], fun _ => .error "down", fun _ => none⟩

/-- An environment serving exactly `issue42`. -/
def envOne : Env :=
  ⟨t0, .ok [issue42], fun n => if n = 42 then .ok issue42 else .error "404",
   fun _ => none⟩

/-- An environment whose every request fails. -/
def envFail : Env :=
  ⟨t0, .error "connection refused", fun _ => .error "connection refused",
   fun _ => none⟩

/-! # Theorems -/

set_option maxRecDepth 100000

/-! ## Stage lemmas for `sanitize_filename` -/

theorem mem_removeBad {c : Char} {l : List Char} (h : c ∈ removeBad l) :
    c ∈ l ∧ isBad c = false := by
  have h2 := List.mem_filter.mp h
  exact ⟨h2.1, by simpa using h2.2⟩

theorem removeBad_eq_self {l : List Char} (h : ∀ c ∈ l, isBad c = false) :
    removeBad l = l :=
  List.filter_eq_self.mpr (fun a ha => by simp [h a ha])

theorem mem_squashWsAux {c : Char} :
    ∀ (l : List Char) (b : Bool), c ∈ squashWsAux b l →
      (c ∈ l ∧ isPyWs c = false) ∨ c = '-' := by
  intro l
  induction l with
  | nil => intro b h; simp [squashWsAux] at h
  | cons x rest ih =>
    intro b h
    simp only [squashWsAux] at h
    by_cases hx : isPyWs x
    · rw [if_pos hx] at h
      cases b with
      | true =>
        simp only [if_pos rfl] at h
        rcases ih true h with h1 | h1
        · exact Or.inl ⟨List.mem_cons_of_mem _ h1.1, h1.2⟩
        · exact Or.inr h1
      | false =>
        simp only [Bool.false_eq_true, if_neg] at h
        rcases List.mem_cons.mp h with h1 | h1
        · exact Or.inr h1
        · rcases ih true h1 with h2 | h2
          · exact Or.inl ⟨List.mem_cons_of_mem _ h2.1, h2.2⟩
          · exact Or.inr h2
    · rw [if_neg hx] at h
      rcases List.mem_cons.mp h with h1 | h1
      · subst h1
        exact Or.inl ⟨List.mem_cons_self _ _, by simpa using hx⟩
      · rcases ih false h1 with h2 | h2
        · exact Or.inl ⟨List.mem_cons_of_mem _ h2.1, h2.2⟩
        · exact Or.inr h2

theorem squashWs_no_ws {c : Char} {l : List Char} (h : c ∈ squashWs l) :
    isPyWs c = false := by
  rcases mem_squashWsAux l false h with h1 | h1
  · exact h1.2
  · subst h1; decide

theorem squashWs_mem_or_hyphen {c : Char} {l : List Char} (h : c ∈ squashWs l) :
    c ∈ l ∨ c = '-' := by
  rcases mem_squashWsAux l false h with h1 | h1
  · exact Or.inl h1.1
  · exact Or.inr h1

theorem squashWsAux_eq_self :
    ∀ (l : List Char) (b : Bool), (∀ c ∈ l, isPyWs c = false) →
      squashWsAux b l = l := by
  intro l
  induction l with
  | nil => intro b _; rfl
  | cons x rest ih =>
    intro b h
    have hx : isPyWs x = false := h x (List.mem_cons_self _ _)
    simp only [squashWsAux, hx]
    simp only [Bool.false_eq_true, if_neg]
    exact congrArg (x :: ·) (ih false (fun c hc => h c (List.mem_cons_of_mem _ hc)))

theorem mem_squashHyAux {c : Char} :
    ∀ (l : List Char) (b : Bool), c ∈ squashHyAux b l → c ∈ l := by
  intro l
  induction l with
  | nil => intro b h; simp [squashHyAux] at h
  | cons x rest ih =>
    intro b h
    simp only [squashHyAux] at h
    by_cases hx : x = '-'
    · rw [if_pos hx] at h
      cases b with
      | true =>
        simp only [if_pos rfl] at h
        exact List.mem_cons_of_mem _ (ih true h)
      | false =>
        simp only [Bool.false_eq_true, if_neg] at h
        rcases List.mem_cons.mp h with h1 | h1
        · subst h1; subst hx; exact List.mem_cons_self _ _
        · exact List.mem_cons_of_mem _ (ih true h1)
    · rw [if_neg hx] at h
      rcases List.mem_cons.mp h with h1 | h1
      · subst h1; exact List.mem_cons_self _ _
      · exact List.mem_cons_of_mem _ (ih false h1)

theorem squashHyAux_true_head :
    ∀ l : List Char, (squashHyAux true l).head? ≠ some '-' := by
  intro l
  induction l with
  | nil => simp [squashHyAux]
  | cons x rest ih =>
    simp only [squashHyAux]
    by_cases hx : x = '-'
    · rw [if_pos hx]
      simpa using ih
    · rw [if_neg hx]
      simp only [List.head?_cons, ne_eq, Option.some.injEq]
      exact hx

theorem noDouble_tail {c : Char} {l : List Char} (h : noDouble (c :: l) = true) :
    noDouble l = true := by
  cases l with
  | nil => rfl
  | cons y ys =>
    simp only [noDouble, Bool.and_eq_true] at h
    exact h.2

theorem noDouble_cons_of {c : Char} {l : List Char} (h : noDouble l = true)
    (hcl : ¬(c = '-' ∧ l.head? = some '-')) : noDouble (c :: l) = true := by
  cases l with
  | nil => rfl
  | cons y ys =>
    simp only [noDouble, Bool.and_eq_true]
    refine ⟨?_, h⟩
    simp only [List.head?_cons] at hcl
    simp only [Bool.not_eq_true', Bool.and_eq_false_iff, beq_eq_false_iff_ne, ne_eq]
    by_cases hc : c = '-'
    · right; intro hy; exact hcl ⟨hc, by rw [hy]⟩
    · left; exact hc

theorem noDouble_squashHyAux :
    ∀ (l : List Char) (b : Bool), noDouble (squashHyAux b l) = true := by
  intro l
  induction l with
  | nil => intro b; rfl
  | cons x rest ih =>
    intro b
    simp only [squashHyAux]
    by_cases hx : x = '-'
    · rw [if_pos hx]
      cases b with
      | true => simpa using ih true
      | false =>
        simp only [Bool.false_eq_true, if_neg]
        exact noDouble_cons_of (ih true)
          (fun hh => squashHyAux_true_head rest hh.2)
    · rw [if_neg hx]
      exact noDouble_cons_of (ih false) (fun hh => hx hh.1)

theorem squashHyAux_eq_self :
    ∀ (l : List Char) (b : Bool), noDouble l = true →
      (b = true → l.head? ≠ some '-') → squashHyAux b l = l := by
  intro l
  induction l with
  | nil => intro b _ _; rfl
  | cons x rest ih =>
    intro b hnd hb
    simp only [squashHyAux]
    by_cases hx : x = '-'
    · cases b with
      | true => exact absurd (by simp [hx]) (hb rfl)
      | false =>
        rw [if_pos hx]
        simp only [Bool.false_eq_true, if_neg]
        subst hx
        refine congrArg ('-' :: ·) (ih true (noDouble_tail hnd) (fun _ hh => ?_))
        cases rest with
        | nil => simp at hh
        | cons y ys =>
          simp only [List.head?_cons, Option.some.injEq] at hh
          subst hh
          simp [noDouble] at hnd
    · rw [if_neg hx]
      exact congrArg (x :: ·) (ih false (noDouble_tail hnd) (by simp))

theorem dropWhile_head_not (p : Char → Bool) :
    ∀ (l : List Char) (c : Char), (l.dropWhile p).head? = some c → p c = false := by
  intro l
  induction l with
  | nil => intro c h; simp [List.dropWhile] at h
  | cons x rest ih =>
    intro c h
    rw [List.dropWhile_cons] at h
    by_cases hx : p x
    · rw [if_pos hx] at h; exact ih c h
    · rw [if_neg hx] at h
      simp only [List.head?_cons, Option.some.injEq] at h
      subst h
      simpa using hx

theorem dropWhile_eq_self_of_head {p : Char → Bool} {l : List Char}
    (h : ∀ c, l.head? = some c → p c = false) : l.dropWhile p = l := by
  cases l with
  | nil => rfl
  | cons x rest =>
    have hx := h x rfl
    rw [List.dropWhile_cons]
    simp [hx]

theorem stripHyphens_sublist (l : List Char) : (stripHyphens l).Sublist l := by
  unfold stripHyphens
  have h1 : (l.dropWhile (fun c => c = '-')).Sublist l := (List.dropWhile_suffix _).sublist
  have h2 : ((l.dropWhile (fun c => c = '-')).reverse.dropWhile (fun c => c = '-')).Sublist
      (l.dropWhile (fun c => c = '-')).reverse := (List.dropWhile_suffix _).sublist
  have h3 := h2.reverse
  rw [List.reverse_reverse] at h3
  exact h3.trans h1

theorem stripHyphens_pref (l : List Char) :
    stripHyphens l <+: l.dropWhile (fun c => c = '-') := by
  unfold stripHyphens
  have h := List.reverse_prefix.mpr
    (@List.dropWhile_suffix _ ((l.dropWhile (fun c => c = '-')).reverse) (fun c => c = '-'))
  simpa using h

theorem stripHyphens_head (l : List Char) :
    (stripHyphens l).head? ≠ some '-' := by
  intro h
  obtain ⟨t, ht⟩ := stripHyphens_pref l
  cases hs : stripHyphens l with
  | nil => rw [hs] at h; simp at h
  | cons c cs =>
    rw [hs] at h ht
    simp only [List.head?_cons, Option.some.injEq] at h
    subst h
    have hh : (l.dropWhile (fun c => c = '-')).head? = some '-' := by
      rw [← ht]; rfl
    have h2 := dropWhile_head_not (fun c => c = '-') _ _ hh
    simp at h2

theorem stripHyphens_getLast (l : List Char) :
    (stripHyphens l).getLast? ≠ some '-' := by
  intro h
  unfold stripHyphens at h
  rw [List.getLast?_reverse] at h
  have h2 := dropWhile_head_not (fun c => c = '-') _ _ h
  simp at h2

theorem stripHyphens_eq_self {l : List Char}
    (h1 : l.head? ≠ some '-') (h2 : l.getLast? ≠ some '-') :
    stripHyphens l = l := by
  unfold stripHyphens
  have e1 : l.dropWhile (fun c => c = '-') = l :=
    dropWhile_eq_self_of_head (fun c hc => by
      rcases eq_or_ne c '-' with rfl | hne
      · exact absurd hc h1
      · simp [hne])
  rw [e1]
  have e2 : l.reverse.dropWhile (fun c => c = '-') = l.reverse :=
    dropWhile_eq_self_of_head (fun c hc => by
      rw [List.head?_reverse] at hc
      rcases eq_or_ne c '-' with rfl | hne
      · exact absurd hc h2
      · simp [hne])
  rw [e2, List.reverse_reverse]

theorem noDouble_append {l₁ l₂ : List Char} (h1 : noDouble l₁ = true)
    (h2 : noDouble l₂ = true)
    (h3 : l₁.getLast? = some '-' → l₂.head? ≠ some '-') :
    noDouble (l₁ ++ l₂) = true := by
  induction l₁ with
  | nil => simpa using h2
  | cons x rest ih =>
    cases rest with
    | nil =>
      simp only [List.singleton_append]
      refine noDouble_cons_of h2 ?_
      rintro ⟨rfl, hh⟩
      exact h3 (by simp) hh
    | cons y ys =>
      have hx : noDouble (y :: ys) = true := noDouble_tail h1
      have hpair : (!(x == '-' && y == '-')) = true := by
        simp only [noDouble, Bool.and_eq_true] at h1
        exact h1.1
      have hrec := ih hx (by
        intro hl
        exact h3 (by rw [List.getLast?_cons_cons]; exact hl))
      rw [List.cons_append]
      refine noDouble_cons_of hrec ?_
      rintro ⟨rfl, hh⟩
      rw [List.cons_append, List.head?_cons] at hh
      simp only [Option.some.injEq] at hh
      subst hh
      simp at hpair

theorem noDouble_of_no_hyphen {l : List Char} (h : ∀ c ∈ l, c ≠ '-') :
    noDouble l = true := by
  induction l with
  | nil => rfl
  | cons x rest ih =>
    refine noDouble_cons_of (ih fun c hc => h c (List.mem_cons_of_mem _ hc)) ?_
    rintro ⟨rfl, _⟩
    exact h '-' (List.mem_cons_self _ _) rfl

theorem noDouble_append_left {l s : List Char} (h : noDouble (l ++ s) = true) :
    noDouble l = true := by
  induction l with
  | nil => rfl
  | cons x rest ih =>
    cases rest with
    | nil => rfl
    | cons y ys =>
      simp only [List.cons_append, noDouble, Bool.and_eq_true] at h ⊢
      exact ⟨h.1, ih h.2⟩

theorem noDouble_drop_pre {p l : List Char} (h : noDouble (p ++ l) = true) :
    noDouble l = true := by
  induction p with
  | nil => simpa using h
  | cons x xs ih => exact ih (noDouble_tail (by simpa using h))

theorem noDouble_infix {l₁ l₂ : List Char} (h : l₁ <:+: l₂)
    (hnd : noDouble l₂ = true) : noDouble l₁ = true := by
  obtain ⟨s, t, rfl⟩ := h
  rw [List.append_assoc] at hnd
  exact noDouble_append_left (noDouble_drop_pre hnd)

theorem stripHyphens_inf (l : List Char) : stripHyphens l <:+: l :=
  (stripHyphens_pref l).isInfix.trans (List.dropWhile_suffix _).isInfix

/-! ## Digit and pad lemmas -/

theorem digitChar_mem (n : Nat) : digitChar n ∈ digitList := by
  unfold digitChar
  repeat' split
  all_goals decide

theorem natDigitsF_mem {c : Char} : ∀ (f n : Nat), c ∈ natDigitsF f n → c ∈ digitList := by
  intro f
  induction f with
  | zero =>
    intro n h
    simp only [natDigitsF, List.mem_singleton] at h
    subst h; exact digitChar_mem n
  | succ f ih =>
    intro n h
    simp only [natDigitsF] at h
    by_cases hn : n < 10
    · rw [if_pos hn] at h
      simp only [List.mem_singleton] at h
      subst h; exact digitChar_mem n
    · rw [if_neg hn] at h
      rcases List.mem_append.mp h with h1 | h1
      · exact ih _ h1
      · simp only [List.mem_singleton] at h1
        subst h1; exact digitChar_mem _

theorem natDigits_mem {n : Nat} {c : Char} (h : c ∈ natDigits n) : c ∈ digitList :=
  natDigitsF_mem n n h

theorem pad_mem {w n : Nat} {c : Char} (h : c ∈ pad w n) : c ∈ digitList := by
  rcases List.mem_append.mp h with h1 | h1
  · rw [List.eq_of_mem_replicate h1]; decide
  · exact natDigits_mem h1

theorem natDigitsF_ne_nil (f n : Nat) : natDigitsF f n ≠ [] := by
  cases f with
  | zero => simp [natDigitsF]
  | succ f =>
    simp only [natDigitsF]
    by_cases hn : n < 10
    · simp [hn]
    · simp [hn]

theorem natDigits_ne_nil (n : Nat) : natDigits n ≠ [] := natDigitsF_ne_nil n n

theorem pad_ne_nil (w n : Nat) : pad w n ≠ [] := by
  unfold pad
  intro h
  rcases List.append_eq_nil.mp h with ⟨_, h2⟩
  exact natDigits_ne_nil n h2

theorem digit_not_special {c : Char} (h : c ∈ digitList) :
    isBad c = false ∧ isPyWs c = false ∧ c ≠ '-' ∧ c.isDigit = true := by
  fin_cases h <;> exact ⟨by decide, by decide, by decide, by decide⟩

theorem pad_head_digit {w n : Nat} {c : Char} (h : (pad w n).head? = some c) :
    c ∈ digitList :=
  pad_mem (List.mem_of_mem_head? (Option.mem_def.mpr h))

theorem pad_getLast_digit {w n : Nat} {c : Char} (h : (pad w n).getLast? = some c) :
    c ∈ digitList :=
  pad_mem (List.mem_of_mem_getLast? (Option.mem_def.mpr h))

theorem pad_head_ex (w n : Nat) : ∃ c ∈ digitList, (pad w n).head? = some c := by
  cases hp : (pad w n).head? with
  | none => exact absurd (List.head?_eq_none_iff.mp hp) (pad_ne_nil w n)
  | some c => exact ⟨c, pad_head_digit hp, rfl⟩

theorem pad_getLast_ex (w n : Nat) : ∃ c ∈ digitList, (pad w n).getLast? = some c := by
  cases hp : (pad w n).getLast? with
  | none => exact absurd (List.getLast?_eq_none_iff.mp hp) (pad_ne_nil w n)
  | some c => exact ⟨c, pad_getLast_digit hp, rfl⟩

/-! ## The fallback string is a good output -/

theorem tsCompact_mem {t : PyTime} {c : Char} (h : c ∈ tsCompact t) :
    c ∈ digitList ∨ c = '-' := by
  simp only [tsCompact, List.mem_append, List.mem_cons] at h
  rcases h with (((h | h) | h) | h | ((h | h) | h))
  · exact Or.inl (pad_mem h)
  · exact Or.inl (pad_mem h)
  · exact Or.inl (pad_mem h)
  · exact Or.inr h
  · exact Or.inl (pad_mem h)
  · exact Or.inl (pad_mem h)
  · exact Or.inl (pad_mem h)

theorem pad_append_head (w n : Nat) (r : List Char) :
    ∃ c ∈ digitList, (pad w n ++ r).head? = some c := by
  obtain ⟨c, hcd, hc⟩ := pad_head_ex w n
  exact ⟨c, hcd, by rw [List.head?_append, hc]; rfl⟩

theorem tsCompact_noDouble (t : PyTime) : noDouble (tsCompact t) = true := by
  have hnh : ∀ (w n : Nat) (c : Char), c ∈ pad w n → c ≠ '-' :=
    fun w n c hc => (digit_not_special (pad_mem hc)).2.2.1
  have hA : noDouble (pad 4 t.year ++ pad 2 t.month ++ pad 2 t.day) = true :=
    noDouble_of_no_hyphen (fun c hc => by
      rcases List.mem_append.mp hc with h1 | h1
      · rcases List.mem_append.mp h1 with h2 | h2
        · exact hnh _ _ _ h2
        · exact hnh _ _ _ h2
      · exact hnh _ _ _ h1)
  have hB : noDouble (pad 2 t.hour ++ pad 2 t.minute ++ pad 2 t.second) = true :=
    noDouble_of_no_hyphen (fun c hc => by
      rcases List.mem_append.mp hc with h1 | h1
      · rcases List.mem_append.mp h1 with h2 | h2
        · exact hnh _ _ _ h2
        · exact hnh _ _ _ h2
      · exact hnh _ _ _ h1)
  have hcons : noDouble ('-' :: (pad 2 t.hour ++ pad 2 t.minute ++ pad 2 t.second)) = true := by
    refine noDouble_cons_of hB ?_
    rintro ⟨_, hh⟩
    rw [List.append_assoc] at hh
    obtain ⟨c, hcd, hc⟩ := pad_append_head 2 t.hour (pad 2 t.minute ++ pad 2 t.second)
    rw [hc] at hh
    simp only [Option.some.injEq] at hh
    exact (digit_not_special hcd).2.2.1 hh
  show noDouble ((pad 4 t.year ++ pad 2 t.month ++ pad 2 t.day) ++
    ('-' :: (pad 2 t.hour ++ pad 2 t.minute ++ pad 2 t.second))) = true
  refine noDouble_append hA hcons ?_
  intro hl
  rw [List.getLast?_append] at hl
  obtain ⟨c, hcd, hc⟩ := pad_getLast_ex 2 t.day
  rw [hc] at hl
  have hl2 : (some c : Option Char) = some '-' := hl
  simp only [Option.some.injEq] at hl2
  exact absurd hl2 (digit_not_special hcd).2.2.1

theorem fallback_goodOut (t : PyTime) :
    goodOut ("article-".toList ++ tsCompact t) := by
  refine ⟨?_, ?_, ?_, ?_⟩
  · intro c hc
    rcases List.mem_append.mp hc with h1 | h1
    · fin_cases h1 <;> exact ⟨by decide, by decide⟩
    · rcases tsCompact_mem h1 with h2 | h2
      · have h3 := digit_not_special h2
        exact ⟨h3.1, h3.2.1⟩
      · subst h2; exact ⟨by decide, by decide⟩
  · refine noDouble_append (by decide) (tsCompact_noDouble t) ?_
    intro _ hh
    have hthis : (tsCompact t).head? = some '-' := hh
    unfold tsCompact at hthis
    rw [List.append_assoc, List.append_assoc] at hthis
    obtain ⟨c, hcd, hc⟩ := pad_append_head 4 t.year
      (pad 2 t.month ++ (pad 2 t.day ++
        ('-' :: (pad 2 t.hour ++ pad 2 t.minute ++ pad 2 t.second))))
    rw [hc] at hthis
    simp only [Option.some.injEq] at hthis
    exact (digit_not_special hcd).2.2.1 hthis
  · intro hcontra
    rw [List.head?_append] at hcontra
    have e : ("article-".toList).head? = some 'a' := rfl
    rw [e] at hcontra
    have hc2 : (some 'a' : Option Char) = some '-' := hcontra
    simp only [Option.some.injEq] at hc2
    exact absurd hc2 (by decide)
  · rw [List.getLast?_append]
    obtain ⟨c, hcd, hc⟩ := pad_getLast_ex 2 t.second
    have h1 : (tsCompact t).getLast? = some c := by
      show (((pad 4 t.year ++ pad 2 t.month ++ pad 2 t.day) ++
        (['-'] ++ (pad 2 t.hour ++ pad 2 t.minute ++ pad 2 t.second)))).getLast? = some c
      simp only [List.getLast?_append, hc]
      rfl
    rw [h1]
    intro hx
    have hx2 : (some c : Option Char) = some '-' := hx
    simp only [Option.some.injEq] at hx2
    exact (digit_not_special hcd).2.2.1 hx2

/-! ## `sanitize_filename` output invariant and claims C3, C4 -/

theorem squashWs_eq_self {l : List Char} (h : ∀ c ∈ l, isPyWs c = false) :
    squashWs l = l := squashWsAux_eq_self l false h

theorem squashHyphens_eq_self {l : List Char} (h : noDouble l = true) :
    squashHyphens l = l := squashHyAux_eq_self l false h (by simp)

theorem sanitizeCore_goodOut (title : String) : goodOut (sanitizeCore title) := by
  unfold sanitizeCore
  refine ⟨?_, ?_, stripHyphens_head _, stripHyphens_getLast _⟩
  · intro c hc
    have hc3 : c ∈ squashHyphens (squashWs (removeBad title.toList)) :=
      (stripHyphens_sublist _).subset hc
    have hc2 : c ∈ squashWs (removeBad title.toList) := mem_squashHyAux _ false hc3
    constructor
    · rcases squashWs_mem_or_hyphen hc2 with h1 | h1
      · exact (mem_removeBad h1).2
      · subst h1; decide
    · exact squashWs_no_ws hc2
  · exact noDouble_infix (stripHyphens_inf _) (noDouble_squashHyAux _ false)

theorem sanitize_goodOut (now : PyTime) (title : String) :
    goodOut (sanitize_filename now title).toList ∧
      (sanitize_filename now title).toList ≠ [] := by
  unfold sanitize_filename
  by_cases he : (sanitizeCore title).isEmpty
  · rw [if_pos he]
    have e : ("article-" ++ String.mk (tsCompact now)).toList =
        "article-".toList ++ tsCompact now := rfl
    rw [e]
    refine ⟨fallback_goodOut now, ?_⟩
    simp
  · rw [if_neg he]
    have e : (String.mk (sanitizeCore title)).toList = sanitizeCore title := rfl
    rw [e]
    refine ⟨sanitizeCore_goodOut title, ?_⟩
    simpa [List.isEmpty_iff] using he

/-- C3: for every title containing any of the characters
`< > : " / \ | ? *`, the output of `sanitize_filename` contains none of
those characters. -/
theorem c3_sanitize_removes_unsafe (now : PyTime) (title : String) (c : Char)
    (hc : c ∈ badChars) : c ∉ (sanitize_filename now title).toList := by
  intro hmem
  have hg := ((sanitize_goodOut now title).1).1 c hmem
  have hbad : isBad c = true := by
    simp only [isBad, List.contains_eq_any_beq, List.any_eq_true]
    exact ⟨c, hc, by simp⟩
  rw [hg.1] at hbad
  exact Bool.false_ne_true hbad

/-- C4: `sanitize_filename` is idempotent; applying it to its own output
(under any later clock reading) returns that output unchanged. -/
theorem c4_sanitize_idempotent (now1 now2 : PyTime) (title : String) :
    sanitize_filename now2 (sanitize_filename now1 title) =
      sanitize_filename now1 title := by
  obtain ⟨⟨hmem, hnd, hhd, hlast⟩, hne⟩ := sanitize_goodOut now1 title
  have hcore : sanitizeCore (sanitize_filename now1 title) =
      (sanitize_filename now1 title).toList := by
    unfold sanitizeCore
    rw [removeBad_eq_self (fun c hc => (hmem c hc).1)]
    rw [squashWs_eq_self (fun c hc => (hmem c hc).2)]
    rw [squashHyphens_eq_self hnd]
    exact stripHyphens_eq_self hhd hlast
  have hcond : (sanitizeCore (sanitize_filename now1 title)).isEmpty = false := by
    rw [hcore]
    simpa [List.isEmpty_iff] using hne
  calc sanitize_filename now2 (sanitize_filename now1 title)
      = if (sanitizeCore (sanitize_filename now1 title)).isEmpty then
          "article-" ++ String.mk (tsCompact now2)
        else String.mk (sanitizeCore (sanitize_filename now1 title)) := rfl
    _ = String.mk (sanitizeCore (sanitize_filename now1 title)) := by
        rw [hcond]; simp
    _ = String.mk (sanitize_filename now1 title).toList := by rw [hcore]
    _ = sanitize_filename now1 title := rfl

/-! ## Claim C5: the fallback filename format -/

theorem natDigitsF_length : ∀ (f k n : Nat), n < 10 ^ (k + 1) →
    (natDigitsF f n).length ≤ k + 1 := by
  intro f
  induction f with
  | zero => intro k n _; simp [natDigitsF]
  | succ f ih =>
    intro k n hn
    simp only [natDigitsF]
    by_cases h10 : n < 10
    · rw [if_pos h10]; simp
    · rw [if_neg h10]
      cases k with
      | zero =>
        have e : (10:Nat) ^ (0 + 1) = 10 := by norm_num
        rw [e] at hn
        exact absurd hn h10
      | succ k' =>
        rw [List.length_append]
        simp only [List.length_singleton]
        have hdiv : n / 10 < 10 ^ (k' + 1) := by
          rw [Nat.div_lt_iff_lt_mul (by norm_num)]
          calc n < 10 ^ (k' + 1 + 1) := hn
            _ = 10 ^ (k' + 1) * 10 := by ring
        have hrec := ih k' (n / 10) hdiv
        omega

theorem natDigits_length_le {w n : Nat} (hw : 0 < w) (hn : n < 10 ^ w) :
    (natDigits n).length ≤ w := by
  cases w with
  | zero => omega
  | succ w' => exact natDigitsF_length n w' n hn

theorem pad_length {w n : Nat} (hw : 0 < w) (hn : n < 10 ^ w) :
    (pad w n).length = w := by
  unfold pad
  rw [List.length_append, List.length_replicate]
  have := natDigits_length_le hw hn
  omega

/-- C5: for every title that becomes empty after the stripping steps,
`sanitize_filename` returns the non-empty fallback `article-` followed by
the `%Y%m%d-%H%M%S` timestamp: 15 characters containing exactly 14 digits
(8-digit date, hyphen, 6-digit time). -/
theorem c5_empty_title_fallback (now : PyTime) (title : String)
    (hempty : sanitizeCore title = [])
    (hy : now.year < 10000) (hmo : now.month < 100) (hd : now.day < 100)
    (hh : now.hour < 100) (hmi : now.minute < 100) (hs : now.second < 100) :
    sanitize_filename now title = "article-" ++ String.mk (tsCompact now) ∧
    sanitize_filename now title ≠ "" ∧
    (tsCompact now).length = 15 ∧
    (List.filter Char.isDigit (tsCompact now)).length = 14 := by
  have p4 : (10:Nat) ^ 4 = 10000 := by norm_num
  have p2 : (10:Nat) ^ 2 = 100 := by norm_num
  have l4 : (pad 4 now.year).length = 4 := pad_length (by norm_num) (by rw [p4]; exact hy)
  have lmo : (pad 2 now.month).length = 2 := pad_length (by norm_num) (by rw [p2]; exact hmo)
  have ld : (pad 2 now.day).length = 2 := pad_length (by norm_num) (by rw [p2]; exact hd)
  have lh : (pad 2 now.hour).length = 2 := pad_length (by norm_num) (by rw [p2]; exact hh)
  have lmi : (pad 2 now.minute).length = 2 := pad_length (by norm_num) (by rw [p2]; exact hmi)
  have ls : (pad 2 now.second).length = 2 := pad_length (by norm_num) (by rw [p2]; exact hs)
  have hfil : ∀ w n, List.filter Char.isDigit (pad w n) = pad w n := fun w n =>
    List.filter_eq_self.mpr (fun c hc => (digit_not_special (pad_mem hc)).2.2.2)
  have e1 : sanitize_filename now title = "article-" ++ String.mk (tsCompact now) := by
    unfold sanitize_filename
    rw [hempty]
    rfl
  refine ⟨e1, ?_, ?_, ?_⟩
  · rw [e1]
    intro hcontra
    have h2 : "article-".toList ++ tsCompact now = ([] : List Char) :=
      congrArg String.toList hcontra
    have h3 := congrArg List.length h2
    rw [List.length_append] at h3
    have h4 : ("article-".toList).length = 8 := rfl
    rw [h4] at h3
    simp at h3
  · simp only [tsCompact, List.length_append, List.length_cons, l4, lmo, ld, lh, lmi, ls]
  · have ef : List.filter Char.isDigit (tsCompact now) =
        pad 4 now.year ++ pad 2 now.month ++ pad 2 now.day ++
          (pad 2 now.hour ++ pad 2 now.minute ++ pad 2 now.second) := by
      simp only [tsCompact, List.filter_append]
      rw [List.filter_cons_of_neg (by decide)]
      simp only [List.filter_append, hfil]
    rw [ef]
    simp only [List.length_append, l4, lmo, ld, lh, lmi, ls]

/-! ## Claim C2: `process_markdown` -/

theorem afterBrkParen_lt : ∀ l r : List Char, afterBrkParen l = some r → r.length < l.length := by
  intro l
  induction l with
  | nil => intro r hr; simp [afterBrkParen] at hr
  | cons x xs ih =>
    intro r hr
    simp only [afterBrkParen] at hr
    by_cases hc : x = ']' ∧ xs.head? = some '('
    · rw [if_pos hc] at hr
      cases hr
      simp only [List.length_cons, List.length_tail]
      omega
    · rw [if_neg hc] at hr
      exact Nat.lt_trans (ih r hr) (Nat.lt_succ_self _)

theorem afterParen_lt : ∀ l r : List Char, afterParen l = some r → r.length < l.length := by
  intro l
  induction l with
  | nil => intro r hr; simp [afterParen] at hr
  | cons x xs ih =>
    intro r hr
    simp only [afterParen] at hr
    by_cases hc : x = ')'
    · rw [if_pos hc] at hr
      cases hr
      exact Nat.lt_succ_self _
    · rw [if_neg hc] at hr
      exact Nat.lt_trans (ih r hr) (Nat.lt_succ_self _)

theorem matchImage_lt : ∀ l r : List Char, matchImage l = some r → r.length < l.length := by
  intro l r hr
  cases l with
  | nil => simp [matchImage] at hr
  | cons x t =>
    cases t with
    | nil => simp [matchImage] at hr
    | cons y xs =>
      simp only [matchImage] at hr
      by_cases hc : x = '!' ∧ y = '['
      · rw [if_pos hc] at hr
        cases hb2 : afterBrkParen xs with
        | none => rw [hb2] at hr; simp at hr
        | some m =>
          rw [hb2] at hr
          have hr2 : afterParen m = some r := hr
          have h1 := afterBrkParen_lt xs m hb2
          have h2 := afterParen_lt m r hr2
          simp only [List.length_cons]
          omega
      · rw [if_neg hc] at hr; simp at hr

theorem subImagesF_eq : ∀ f l, List.length l ≤ f → subImagesF f l = subImages l := by
  intro f
  induction f using Nat.strong_induction_on with
  | _ f ih =>
    intro l hl
    cases l with
    | nil =>
      cases f with
      | zero => rfl
      | succ f' => rfl
    | cons c rest =>
      cases f with
      | zero => simp at hl
      | succ f' =>
        simp only [List.length_cons] at hl
        show (match matchImage (c :: rest) with
          | some after => subImagesF f' after
          | none => c :: subImagesF f' rest) = subImages (c :: rest)
        cases hm : matchImage (c :: rest) with
        | some after =>
          have hlen := matchImage_lt _ _ hm
          simp only [List.length_cons] at hlen
          have e2 : subImages (c :: rest) = subImagesF rest.length after := by
            show subImagesF (rest.length + 1) (c :: rest) = _
            simp only [subImagesF, hm]
          rw [e2]
          show subImagesF f' after = subImagesF rest.length after
          rw [ih f' (by omega) after (by omega)]
          rw [ih rest.length (by omega) after (by omega)]
        | none =>
          have e2 : subImages (c :: rest) = c :: subImagesF rest.length rest := by
            show subImagesF (rest.length + 1) (c :: rest) = _
            simp only [subImagesF, hm]
          rw [e2]
          show c :: subImagesF f' rest = c :: subImagesF rest.length rest
          rw [ih f' (by omega) rest (by omega)]
          rw [ih rest.length (by omega) rest (by omega)]

theorem subImages_cons_some {c : Char} {rest after : List Char}
    (h : matchImage (c :: rest) = some after) :
    subImages (c :: rest) = subImages after := by
  have hlen := matchImage_lt _ _ h
  simp only [List.length_cons] at hlen
  show subImagesF (rest.length + 1) (c :: rest) = _
  simp only [subImagesF, h]
  exact subImagesF_eq rest.length after (by omega)

theorem subImages_cons_none {c : Char} {rest : List Char}
    (h : matchImage (c :: rest) = none) :
    subImages (c :: rest) = c :: subImages rest := by
  show subImagesF (rest.length + 1) (c :: rest) = _
  simp only [subImagesF, h]
  exact congrArg (c :: ·) (subImagesF_eq rest.length rest (Nat.le_refl _))

theorem afterBrkParen_sound : ∀ l r : List Char, afterBrkParen l = some r →
    ∃ a, l = a ++ ']' :: '(' :: r := by
  intro l
  induction l with
  | nil => intro r h; simp [afterBrkParen] at h
  | cons x xs ih =>
    intro r h
    simp only [afterBrkParen] at h
    by_cases hc : x = ']' ∧ xs.head? = some '('
    · rw [if_pos hc] at h
      simp only [Option.some.injEq] at h
      subst h
      obtain ⟨hx, hh⟩ := hc
      subst hx
      cases xs with
      | nil => simp at hh
      | cons y ys =>
        simp only [List.head?_cons, Option.some.injEq] at hh
        subst hh
        exact ⟨[], rfl⟩
    · rw [if_neg hc] at h
      obtain ⟨a, ha⟩ := ih r h
      exact ⟨x :: a, by rw [ha]; rfl⟩

theorem afterParen_sound : ∀ l r : List Char, afterParen l = some r →
    ∃ b, l = b ++ ')' :: r := by
  intro l
  induction l with
  | nil => intro r h; simp [afterParen] at h
  | cons x xs ih =>
    intro r h
    simp only [afterParen] at h
    by_cases hc : x = ')'
    · rw [if_pos hc] at h
      simp only [Option.some.injEq] at h
      subst h
      subst hc
      exact ⟨[], rfl⟩
    · rw [if_neg hc] at h
      obtain ⟨b, hb⟩ := ih r h
      exact ⟨x :: b, by rw [hb]; rfl⟩

theorem matchImage_sound : ∀ l r : List Char, matchImage l = some r →
    ∃ a b, l = '!' :: '[' :: (a ++ ']' :: '(' :: (b ++ ')' :: r)) := by
  intro l r h
  cases l with
  | nil => simp [matchImage] at h
  | cons x t =>
    cases t with
    | nil => simp [matchImage] at h
    | cons y xs =>
      simp only [matchImage] at h
      by_cases hc : x = '!' ∧ y = '['
      · rw [if_pos hc] at h
        obtain ⟨hx, hy⟩ := hc
        subst hx
        subst hy
        cases hb : afterBrkParen xs with
        | none => rw [hb] at h; simp at h
        | some m =>
          rw [hb] at h
          have h2 : afterParen m = some r := h
          obtain ⟨a, ha⟩ := afterBrkParen_sound xs m hb
          obtain ⟨b, hbb⟩ := afterParen_sound m r h2
          exact ⟨a, b, by rw [ha, hbb]⟩
      · rw [if_neg hc] at h; simp at h

theorem afterParen_mem : ∀ l : List Char, ')' ∈ l → (afterParen l).isSome = true := by
  intro l
  induction l with
  | nil => intro h; simp at h
  | cons x xs ih =>
    intro h
    simp only [afterParen]
    by_cases hx : x = ')'
    · rw [if_pos hx]; rfl
    · rw [if_neg hx]
      rcases List.mem_cons.mp h with h1 | h1
      · exact absurd h1.symm hx
      · exact ih h1

theorem afterBrkParen_cons (x : Char) (l : List Char) :
    afterBrkParen (x :: l) =
      if x = ']' ∧ l.head? = some '(' then some l.tail else afterBrkParen l := rfl

theorem bpParen_complete : ∀ a b q : List Char,
    ((afterBrkParen (a ++ ']' :: '(' :: (b ++ ')' :: q))).bind afterParen).isSome = true := by
  intro a
  induction a with
  | nil =>
    intro b q
    show (afterParen (b ++ ')' :: q)).isSome = true
    exact afterParen_mem _ (by simp)
  | cons x xs ih =>
    intro b q
    rw [List.cons_append, afterBrkParen_cons]
    by_cases hc : x = ']' ∧ (xs ++ ']' :: '(' :: (b ++ ')' :: q)).head? = some '('
    · rw [if_pos hc]
      show (afterParen ((xs ++ ']' :: '(' :: (b ++ ')' :: q)).tail)).isSome = true
      apply afterParen_mem
      have hmem : ')' ∈ xs ++ ']' :: '(' :: (b ++ ')' :: q) := by simp
      cases hxx : xs ++ ']' :: '(' :: (b ++ ')' :: q) with
      | nil => rw [hxx] at hmem; simp at hmem
      | cons z zs =>
        rw [hxx] at hmem
        have hz : z = '(' := by
          have hh := hc.2
          rw [hxx] at hh
          simp only [List.head?_cons, Option.some.injEq] at hh
          exact hh
        rcases List.mem_cons.mp hmem with h1 | h1
        · rw [hz] at h1; exact absurd h1 (by decide)
        · simpa using h1
    · rw [if_neg hc]
      exact ih b q

theorem matchImage_complete (a b q : List Char) :
    (matchImage ('!' :: '[' :: (a ++ ']' :: '(' :: (b ++ ')' :: q)))).isSome = true := by
  show ((afterBrkParen (a ++ ']' :: '(' :: (b ++ ')' :: q))).bind afterParen).isSome = true
  exact bpParen_complete a b q

theorem hasImage_complete : ∀ l : List Char, containsImage l → hasImage l = true := by
  intro l h
  obtain ⟨p, a, b, q, rfl⟩ := h
  induction p with
  | nil =>
    simp only [List.nil_append, hasImage, Bool.or_eq_true]
    exact Or.inl (matchImage_complete a b q)
  | cons x xs ih =>
    simp only [List.cons_append, hasImage, Bool.or_eq_true]
    exact Or.inr ih

theorem hasImage_sound : ∀ l : List Char, hasImage l = true → containsImage l := by
  intro l
  induction l with
  | nil => intro h; simp [hasImage] at h
  | cons c rest ih =>
    intro h
    simp only [hasImage, Bool.or_eq_true] at h
    rcases h with h | h
    · rw [Option.isSome_iff_exists] at h
      obtain ⟨r, hr⟩ := h
      obtain ⟨a, b, hab⟩ := matchImage_sound _ _ hr
      exact ⟨[], a, b, r, by rw [hab]; rfl⟩
    · obtain ⟨p, a, b, q, hpq⟩ := ih h
      exact ⟨c :: p, a, b, q, by rw [hpq]; rfl⟩

theorem hasImage_iff (l : List Char) : hasImage l = true ↔ containsImage l :=
  ⟨hasImage_sound l, hasImage_complete l⟩

theorem subImages_of_no_image : ∀ l : List Char, hasImage l = false →
    subImages l = l := by
  intro l
  induction l with
  | nil => intro _; rfl
  | cons c rest ih =>
    intro h
    simp only [hasImage, Bool.or_eq_false_iff] at h
    obtain ⟨h1, h2⟩ := h
    cases hm : matchImage (c :: rest) with
    | some a => rw [hm] at h1; simp at h1
    | none =>
      rw [subImages_cons_none hm]
      exact congrArg (c :: ·) (ih h2)

theorem subImages_sublist_aux : ∀ (n : Nat) (l : List Char), l.length ≤ n →
    (subImages l).Sublist l := by
  intro n
  induction n with
  | zero =>
    intro l hl
    have he : l = [] := List.length_eq_zero.mp (by omega)
    subst he
    exact List.Sublist.refl []
  | succ n ih =>
    intro l hl
    cases l with
    | nil => exact List.Sublist.refl []
    | cons c rest =>
      simp only [List.length_cons] at hl
      cases hm : matchImage (c :: rest) with
      | some after =>
        rw [subImages_cons_some hm]
        have hlen := matchImage_lt _ _ hm
        simp only [List.length_cons] at hlen
        obtain ⟨a, b, hab⟩ := matchImage_sound _ _ hm
        have hsuf : after <:+ (c :: rest) :=
          ⟨'!' :: '[' :: (a ++ ']' :: '(' :: (b ++ [')'])), by rw [hab]; simp⟩
        have hsub : (subImages after).Sublist after := ih after (by omega)
        exact hsub.trans hsuf.sublist
      | none =>
        rw [subImages_cons_none hm]
        exact List.Sublist.cons₂ c (ih rest (by omega))

theorem subImages_sublist (l : List Char) : (subImages l).Sublist l :=
  subImages_sublist_aux l.length l (Nat.le_refl _)

theorem splitNl_ne_nil : ∀ l : List Char, splitNl l ≠ [] := by
  intro l
  cases l with
  | nil => simp [splitNl]
  | cons c rest =>
    simp only [splitNl]
    by_cases hc : c = '\n'
    · simp [hc]
    · rw [if_neg hc]
      cases splitNl rest with
      | nil => simp
      | cons m ms => simp

theorem mem_splitNl_no_nl : ∀ l x : List Char, x ∈ splitNl l → '\n' ∉ x := by
  intro l
  induction l with
  | nil =>
    intro x hx
    simp only [splitNl, List.mem_singleton] at hx
    subst hx
    simp
  | cons c rest ih =>
    intro x hx
    simp only [splitNl] at hx
    by_cases hc : c = '\n'
    · rw [if_pos hc] at hx
      rcases List.mem_cons.mp hx with h1 | h1
      · subst h1; simp
      · exact ih x h1
    · rw [if_neg hc] at hx
      cases hsp : splitNl rest with
      | nil => exact absurd hsp (splitNl_ne_nil rest)
      | cons m ms =>
        rw [hsp] at hx
        rcases List.mem_cons.mp hx with h1 | h1
        · subst h1
          intro hmem
          rcases List.mem_cons.mp hmem with h2 | h2
          · exact hc h2.symm
          · exact ih m (by rw [hsp]; exact List.mem_cons_self _ _) h2
        · exact ih x (by rw [hsp]; exact List.mem_cons_of_mem _ h1)

theorem joinNl_splitNl : ∀ l : List Char, joinNl (splitNl l) = l := by
  intro l
  induction l with
  | nil => rfl
  | cons c rest ih =>
    simp only [splitNl]
    by_cases hc : c = '\n'
    · rw [if_pos hc]
      subst hc
      cases hsp : splitNl rest with
      | nil => exact absurd hsp (splitNl_ne_nil rest)
      | cons m ms =>
        rw [hsp] at ih
        show [] ++ '\n' :: joinNl (m :: ms) = '\n' :: rest
        rw [List.nil_append]
        exact congrArg ('\n' :: ·) ih
    · rw [if_neg hc]
      cases hsp : splitNl rest with
      | nil => exact absurd hsp (splitNl_ne_nil rest)
      | cons m ms =>
        rw [hsp] at ih
        cases ms with
        | nil =>
          show c :: m = c :: rest
          exact congrArg (c :: ·) ih
        | cons m2 ms2 =>
          show (c :: m) ++ '\n' :: joinNl (m2 :: ms2) = c :: rest
          rw [List.cons_append]
          exact congrArg (c :: ·) ih

theorem splitNl_append_nl : ∀ x t : List Char, '\n' ∉ x →
    splitNl (x ++ '\n' :: t) = x :: splitNl t := by
  intro x
  induction x with
  | nil =>
    intro t _
    show splitNl ('\n' :: t) = [] :: splitNl t
    simp [splitNl]
  | cons c x' ih =>
    intro t hnm
    have hc : ¬ c = '\n' := fun h => hnm (by rw [h]; exact List.mem_cons_self _ _)
    show splitNl (c :: (x' ++ '\n' :: t)) = (c :: x') :: splitNl t
    simp only [splitNl]
    rw [if_neg hc, ih t (fun hm => hnm (List.mem_cons_of_mem _ hm))]

theorem splitNl_no_nl : ∀ x : List Char, '\n' ∉ x → splitNl x = [x] := by
  intro x
  induction x with
  | nil => intro _; rfl
  | cons c x' ih =>
    intro h
    have hc : ¬ c = '\n' := fun hh => h (by rw [hh]; exact List.mem_cons_self _ _)
    simp only [splitNl]
    rw [if_neg hc, ih (fun hm => h (List.mem_cons_of_mem _ hm))]

theorem splitNl_joinNl : ∀ ls : List (List Char), ls ≠ [] →
    (∀ x ∈ ls, '\n' ∉ x) → splitNl (joinNl ls) = ls := by
  intro ls
  induction ls with
  | nil => intro h _; exact absurd rfl h
  | cons x ls' ih =>
    intro _ hn
    cases ls' with
    | nil =>
      show splitNl x = [x]
      exact splitNl_no_nl x (hn x (List.mem_cons_self _ _))
    | cons y ls2 =>
      show splitNl (x ++ '\n' :: joinNl (y :: ls2)) = x :: (y :: ls2)
      rw [splitNl_append_nl x _ (hn x (List.mem_cons_self _ _))]
      rw [ih (by simp) (fun z hz => hn z (List.mem_cons_of_mem _ hz))]

theorem joinNl_map_sublist : ∀ ls : List (List Char),
    (joinNl (ls.map subImages)).Sublist (joinNl ls) := by
  intro ls
  induction ls with
  | nil => simp [joinNl]
  | cons x ls' ih =>
    cases ls' with
    | nil => exact subImages_sublist x
    | cons y ls2 =>
      show ((subImages x) ++ '\n' :: joinNl ((y :: ls2).map subImages)).Sublist
        (x ++ '\n' :: joinNl (y :: ls2))
      exact List.Sublist.append (subImages_sublist x) (List.Sublist.cons₂ _ ih)

/-- C2: `process_markdown` maps each input line through the image-regex
deletion (`re.sub` semantics), keeps every line without an image-syntax
substring byte-identical, preserves line count and order, and only ever
deletes characters. -/
theorem c2_process_markdown (s : String) :
    splitNl (process_markdown s).toList = (splitNl s.toList).map subImages ∧
    ((process_markdown s).toList).Sublist s.toList ∧
    (splitNl (process_markdown s).toList).length = (splitNl s.toList).length ∧
    ∀ line ∈ splitNl s.toList, ¬ containsImage line → subImages line = line := by
  have hlast : ∀ line ∈ splitNl s.toList, ¬ containsImage line → subImages line = line := by
    intro line _ hni
    refine subImages_of_no_image line ?_
    cases hh : hasImage line with
    | false => rfl
    | true => exact absurd ((hasImage_iff line).mp hh) hni
  by_cases hs : s = ""
  · subst hs
    exact ⟨rfl, by simp [process_markdown], rfl, hlast⟩
  · have e : (process_markdown s).toList = joinNl ((splitNl s.toList).map subImages) := by
      unfold process_markdown
      rw [if_neg hs]
      rfl
    have h1 : splitNl (process_markdown s).toList = (splitNl s.toList).map subImages := by
      rw [e]
      refine splitNl_joinNl _ ?_ ?_
      · intro hcontra
        exact splitNl_ne_nil s.toList (List.map_eq_nil_iff.mp hcontra)
      · intro x hx
        rw [List.mem_map] at hx
        obtain ⟨y, hy, rfl⟩ := hx
        intro hmem
        exact mem_splitNl_no_nl _ y hy ((subImages_sublist y).subset hmem)
    refine ⟨h1, ?_, by rw [h1, List.length_map], hlast⟩
    rw [e]
    conv_rhs => rw [← joinNl_splitNl s.toList]
    exact joinNl_map_sublist (splitNl s.toList)

/-- Witness for C2 at a concrete two-line input with one image. -/
theorem c2_witness :
    process_markdown "keep\n![a](b)x" = "keep\nx" ∧
    subImages ("keep".toList) = "keep".toList := by
  constructor
  · rfl
  · exact (c2_process_markdown "keep\n![a](b)x").2.2.2 ("keep".toList) (by decide)
      (fun hci => absurd ((hasImage_iff ("keep".toList)).mpr hci) (by decide))

/-! ## Claim C1 and witnesses for C3, C5 -/

/-- C1: the round-trip record (number 42, title `Hello World`, body
`some text`, created `2023-01-15T10:30:00Z`, updated `2023-01-16T08:00:00Z`)
converts to filename `2023-01-15-Hello-World.md`; the header contains the
line `title: "Hello World"` and the tag entry `tags: [42]`; the body
section equals `some text` unchanged. -/
theorem c1_round_trip :
    ∃ header : String,
      convertParts t0 issue42 = some ("2023-01-15-Hello-World.md", header, "some text") ∧
      convert_to_jekyll_post t0 issue42 =
        some ("2023-01-15-Hello-World.md", header ++ "some text") ∧
      ("\ntitle: \"Hello World\"\n").toList <:+: header.toList ∧
      ("tags: [42]").toList <:+: header.toList := by
  refine ⟨"---\ntitle: \"Hello World\"\ndate: 2023-01-15 10:30:00 +0000\nlast_modified_at: 2023-01-16 08:00:00 +0000\ncategories: [Gitee Issues]\ntags: [42]  # 使用issue编号作为tag\ncomments: true\n---\n\n## 原始链接\n\n本文档从Gitee Issue自动生成，原文地址：[Issue #42](https://gitee.com/aywlzj/aywlzj.gitee.io/issues/42)\n\n---\n\n", ?_, ?_, ?_, ?_⟩
  · rfl
  · rfl
  · decide
  · decide

/-- Witness for C3 at the title `a<b*` and the unsafe character `<`. -/
theorem c3_witness :
    '<' ∈ badChars ∧ '<' ∉ (sanitize_filename t0 "a<b*").toList :=
  ⟨by decide, c3_sanitize_removes_unsafe t0 "a<b*" '<' (by decide)⟩

/-- Witness for C5 at the all-unsafe title `???` and the fixed clock `t0`. -/
theorem c5_witness :
    sanitize_filename t0 "???" = "article-" ++ String.mk (tsCompact t0) ∧
    sanitize_filename t0 "???" ≠ "" ∧
    (tsCompact t0).length = 15 ∧
    (List.filter Char.isDigit (tsCompact t0)).length = 14 :=
  c5_empty_title_fallback t0 "???" (by decide) (by decide) (by decide)
    (by decide) (by decide) (by decide) (by decide)

/-! ## Claims C6 and C10: blank and null bodies -/

theorem convertParts_blank {now : PyTime} {i : Issue} {fn fm b : String}
    (hconv : convertParts now i = some (fn, fm, b))
    (hblank : pyBlank (effBody i) = true) :
    b = placeholder i.title := by
  unfold convertParts at hconv
  cases hcd : fromisoformat (replaceZ i.created_at) with
  | none => rw [hcd] at hconv; simp at hconv
  | some cd =>
    rw [hcd] at hconv
    cases hud : fromisoformat (replaceZ (i.updated_at.getD i.created_at)) with
    | none => rw [hud] at hconv; simp at hconv
    | some ud =>
      rw [hud] at hconv
      have h3 : (some (strftimeDate cd ++ "-" ++ sanitize_filename now i.title ++ ".md",
          mkFrontMatter i cd ud,
          if pyBlank (effBody i) then placeholder i.title
          else process_markdown (effBody i)) :
          Option (String × String × String)) = some (fn, fm, b) := hconv
      simp only [Option.some.injEq, Prod.mk.injEq] at h3
      rw [← h3.2.2, if_pos hblank]

theorem placeholder_ne_empty (t : String) : placeholder t ≠ "" := by
  intro hcontra
  have h2 : ("**".toList ++ t.toList) ++
      ("**\n\n> 此文章来自Gitee Issue，内容为空，已自动使用标题作为内容。").toList = ([] : List Char) :=
    congrArg String.toList hcontra
  have h3 := congrArg List.length h2
  rw [List.length_append, List.length_append] at h3
  have h4 : ("**".toList).length = 2 := rfl
  rw [h4] at h3
  simp at h3

/-- C6: for every record whose body is empty or whitespace-only, the body
section of the generated document is the fixed placeholder sentence
embedding the title (never the literal empty string), and the article is
the front matter followed by that placeholder. -/
theorem c6_blank_body (now : PyTime) (i : Issue) (fn fm b : String)
    (hconv : convertParts now i = some (fn, fm, b))
    (hblank : pyBlank (effBody i) = true) :
    b = placeholder i.title ∧ b ≠ "" ∧
    convert_to_jekyll_post now i = some (fn, fm ++ b) := by
  have hb := convertParts_blank hconv hblank
  refine ⟨hb, ?_, ?_⟩
  · rw [hb]
    exact placeholder_ne_empty i.title
  · unfold convert_to_jekyll_post
    rw [hconv]
    rfl

/-- C10: a record whose `body` key holds `null` does not make the converter
raise: `body or ''` collapses it to the empty string, so it behaves exactly
like an empty body and the body section is the placeholder sentence. -/
theorem c10_null_body (now : PyTime) (i : Issue) (hnull : i.body = some none) :
    convertParts now i = convertParts now { i with body := some (some "") } ∧
    ∀ fn fm b, convertParts now i = some (fn, fm, b) →
      b = placeholder i.title ∧ b ≠ "" := by
  have heff : effBody i = "" := by unfold effBody; rw [hnull]
  constructor
  · cases i with
    | mk num title body ca ua =>
      simp only at hnull
      subst hnull
      rfl
  · intro fn fm b hconv
    have hb := convertParts_blank hconv (by rw [heff]; rfl)
    exact ⟨hb, by rw [hb]; exact placeholder_ne_empty i.title⟩

/-- Witness for C6 at the whitespace-only-body record `issueBlank`. -/
theorem c6_witness :
    ph42 = placeholder issueBlank.title ∧ ph42 ≠ "" ∧
    convert_to_jekyll_post t0 issueBlank =
      some ("2023-01-15-Hello-World.md", fm42 ++ ph42) :=
  c6_blank_body t0 issueBlank "2023-01-15-Hello-World.md" fm42 ph42 (by rfl) (by rfl)

/-- Witness for C10 at the null-body record `issueNull`. -/
theorem c10_witness :
    (convertParts t0 issueNull =
      convertParts t0 { issueNull with body := some (some "") }) ∧
    ph42 = placeholder issueNull.title ∧ ph42 ≠ "" :=
  ⟨(c10_null_body t0 issueNull rfl).1,
   (c10_null_body t0 issueNull rfl).2 "2023-01-15-Hello-World.md" fm42 ph42 (by rfl)⟩

/-! ## Claim C7: existing files are never overwritten -/

theorem lookup_filter_ne {name k : String} (hne : name ≠ k) :
    ∀ files : List (String × String),
      List.lookup name (files.filter (fun p => p.1 ≠ k)) =
        List.lookup name files := by
  intro files
  induction files with
  | nil => rfl
  | cons p rest ih =>
    obtain ⟨k1, v1⟩ := p
    by_cases hp : k1 = k
    · rw [List.filter_cons_of_neg (by simp [hp])]
      rw [ih]
      have hk : (name == k1) = false := by
        refine beq_eq_false_iff_ne.mpr ?_
        rw [hp]
        exact hne
      show List.lookup name rest = List.lookup name ((k1, v1) :: rest)
      simp [List.lookup, hk]
    · rw [List.filter_cons_of_pos (by simp [hp])]
      by_cases hk : name = k1
      · subst hk
        simp [List.lookup]
      · have hb : (name == k1) = false := beq_eq_false_iff_ne.mpr hk
        simp only [List.lookup, hb]
        exact ih

theorem lookup_setFile {files : List (String × String)} {name k v c : String}
    (hc : List.lookup name files = some c) (hk : List.lookup k files = none) :
    List.lookup name (setFile files k v) = some c := by
  have hne : name ≠ k := by
    intro h
    subst h
    rw [hc] at hk
    exact Option.noConfusion hk
  unfold setFile
  rw [List.lookup_append, lookup_filter_ne hne files, hc]
  rfl

theorem processIssue_preserves (env : Env) (st : St) (issue : Issue)
    {name c : String} (hc : List.lookup name st.files = some c) :
    List.lookup name (processIssue env st issue).1.files = some c := by
  unfold processIssue
  cases hnum : issue.number with
  | none => exact hc
  | some n =>
    simp only []
    by_cases hn : n = 0
    · rw [if_pos hn]
      exact hc
    · rw [if_neg hn]
      cases hdet : (get_issue_content env n).1 with
      | none => exact hc
      | some detail =>
        simp only []
        cases hcv : convert_to_jekyll_post env.now detail with
        | none => exact hc
        | some fc =>
          simp only []
          by_cases hex : (List.lookup fc.1 st.files).isSome
          · rw [if_pos hex]
            exact hc
          · rw [if_neg hex]
            cases hw : env.writeErr fc.1 with
            | none =>
              have hnone : List.lookup fc.1 st.files = none := by
                cases hl : List.lookup fc.1 st.files with
                | none => rfl
                | some v => rw [hl] at hex; simp at hex
              exact lookup_setFile hc hnone
            | some e => exact hc

theorem runLoop_preserves (env : Env) :
    ∀ (issues : List Issue) (st : St) {name c : String},
      List.lookup name st.files = some c →
      List.lookup name (runLoop env issues st).1.files = some c := by
  intro issues
  induction issues with
  | nil => intro st name c hc; exact hc
  | cons i rest ih =>
    intro st name c hc
    show List.lookup name
      (if (processIssue env st i).2 then runLoop env rest (processIssue env st i).1
       else ((processIssue env st i).1, false)).1.files = some c
    by_cases hp : (processIssue env st i).2
    · rw [if_pos hp]
      exact ih _ (processIssue_preserves env st i hc)
    · rw [if_neg hp]
      exact processIssue_preserves env st i hc

/-- C7: a record whose generated filename already exists is skipped: the
directory and the success counter are untouched and only the two log lines
are emitted; and across any whole run, a file present at the start keeps its
original content byte for byte. -/
theorem c7_existing_never_overwritten :
    (∀ (env : Env) (st : St) (issue : Issue) (n : Nat) (d : Issue)
        (fn content c0 : String),
      issue.number = some n → n ≠ 0 →
      env.detailResult n = Except.ok d →
      convert_to_jekyll_post env.now d = some (fn, content) →
      List.lookup fn st.files = some c0 →
      processIssue env st issue =
        ({ st with out := st.out ++
            ["\n📝 处理Issue #" ++ natStr n ++ ": " ++ take50 issue.title ++ "...",
             "⚠️  文章已存在，跳过: " ++ fn] }, true) ∧
      (processIssue env st issue).1.files = st.files ∧
      (processIssue env st issue).1.count = st.count) ∧
    (∀ (env : Env) (fs0 : List (String × String)) (name c0 : String),
      List.lookup name fs0 = some c0 →
      List.lookup name (generate_articles env fs0).1.files = some c0) := by
  constructor
  · intro env st issue n d fn content c0 hnum hn hdet hconv hlook
    have hmain : processIssue env st issue =
        ({ st with out := st.out ++
            ["\n📝 处理Issue #" ++ natStr n ++ ": " ++ take50 issue.title ++ "...",
             "⚠️  文章已存在，跳过: " ++ fn] }, true) := by
      unfold processIssue
      rw [hnum]
      simp only []
      rw [if_neg hn]
      unfold get_issue_content
      rw [hdet]
      simp only []
      rw [hconv]
      simp only []
      rw [if_pos (show (List.lookup fn (st.files : List (String × String))).isSome = true
        by rw [hlook]; rfl)]
      simp
    exact ⟨hmain, by rw [hmain], by rw [hmain]⟩
  · intro env fs0 name c0 hc
    unfold generate_articles
    by_cases hempty : (get_all_issues env).1.isEmpty
    · rw [if_pos hempty]
      exact hc
    · rw [if_neg hempty]
      simp only []
      have hrun := runLoop_preserves env (get_all_issues env).1
        { files := fs0, count := 0,
          out := ["🚀 开始从Gitee Issues生成Jekyll文章...", eqLine] ++ (get_all_issues env).2 }
        hc
      by_cases hflag : (runLoop env (get_all_issues env).1
          { files := fs0, count := 0,
            out := ["🚀 开始从Gitee Issues生成Jekyll文章...", eqLine] ++ (get_all_issues env).2 }).2
      · rw [if_pos hflag]
        exact hrun
      · rw [if_neg hflag]
        exact hrun

/-- Witness for C7: a pre-existing `2023-01-15-Hello-World.md` survives both
a single skip step and a whole run, and the counter stays at zero. -/
theorem c7_witness :
    (processIssue envOne ⟨[("2023-01-15-Hello-World.md", "OLD")], 0, []⟩ issue42 =
      ({ files := [("2023-01-15-Hello-World.md", "OLD")], count := 0,
         out := ["\n📝 处理Issue #42: Hello World...",
                 "⚠️  文章已存在，跳过: 2023-01-15-Hello-World.md"] }, true)) ∧
    List.lookup "2023-01-15-Hello-World.md"
      (generate_articles envOne [("2023-01-15-Hello-World.md", "OLD")]).1.files =
      some "OLD" := by
  constructor
  · exact (c7_existing_never_overwritten.1 envOne
      ⟨[("2023-01-15-Hello-World.md", "OLD")], 0, []⟩ issue42 42 issue42
      "2023-01-15-Hello-World.md" (fm42 ++ "some text") "OLD"
      rfl (by decide) rfl (by rfl) (by rfl)).1
  · exact c7_existing_never_overwritten.2 envOne
      [("2023-01-15-Hello-World.md", "OLD")] "2023-01-15-Hello-World.md" "OLD" (by rfl)

/-! ## Claim C8: HTTP failures degrade, never raise -/

/-- C8: every HTTP failure is caught: a failed listing yields the empty
list plus a log line, a failed detail fetch yields `none` plus a log line,
and the loop leaves the state otherwise unchanged for that record and
continues with the remaining records. -/
theorem c8_http_failures :
    (∀ (env : Env) (e : String), env.listResult = Except.error e →
      get_all_issues env =
        ([], ["正在获取 aywlzj/aywlzj.gitee.io 的所有issues...",
              "获取issues失败: " ++ e])) ∧
    (∀ (env : Env) (n : Nat) (e : String), env.detailResult n = Except.error e →
      get_issue_content env n =
        (none, ["获取issue " ++ natStr n ++ " 内容失败: " ++ e])) ∧
    (∀ (env : Env) (st : St) (issue : Issue) (rest : List Issue) (n : Nat) (e : String),
      issue.number = some n → n ≠ 0 →
      env.detailResult n = Except.error e →
      processIssue env st issue =
        ({ st with out := st.out ++
            ["\n📝 处理Issue #" ++ natStr n ++ ": " ++ take50 issue.title ++ "...",
             "获取issue " ++ natStr n ++ " 内容失败: " ++ e] }, true) ∧
      runLoop env (issue :: rest) st =
        runLoop env rest { st with out := st.out ++
            ["\n📝 处理Issue #" ++ natStr n ++ ": " ++ take50 issue.title ++ "...",
             "获取issue " ++ natStr n ++ " 内容失败: " ++ e] }) := by
  refine ⟨?_, ?_, ?_⟩
  · intro env e h
    unfold get_all_issues
    rw [h]
    rfl
  · intro env n e h
    unfold get_issue_content
    rw [h]
  · intro env st issue rest n e hnum hn hdet
    have hp : processIssue env st issue =
        ({ st with out := st.out ++
            ["\n📝 处理Issue #" ++ natStr n ++ ": " ++ take50 issue.title ++ "...",
             "获取issue " ++ natStr n ++ " 内容失败: " ++ e] }, true) := by
      unfold processIssue
      rw [hnum]
      simp only []
      rw [if_neg hn]
      unfold get_issue_content
      rw [hdet]
      simp
    refine ⟨hp, ?_⟩
    show (if (processIssue env st issue).2 then
            runLoop env rest (processIssue env st issue).1
          else ((processIssue env st issue).1, false)) = _
    rw [hp]
    simp

/-- Witness for C8 at the always-failing environment `envFail`. -/
theorem c8_witness :
    get_all_issues envFail =
      ([], ["正在获取 aywlzj/aywlzj.gitee.io 的所有issues...",
            "获取issues失败: connection refused"]) ∧
    get_issue_content envFail 42 =
      (none, ["获取issue 42 内容失败: connection refused"]) ∧
    processIssue envFail ⟨[], 0, []⟩ issue42 =
      (⟨[], 0, ["\n📝 处理Issue #42: Hello World...",
                "获取issue 42 内容失败: connection refused"]⟩, true) := by
  refine ⟨c8_http_failures.1 envFail "connection refused" rfl,
    c8_http_failures.2.1 envFail 42 "connection refused" rfl, ?_⟩
  exact (c8_http_failures.2.2 envFail ⟨[], 0, []⟩ issue42 [] 42 "connection refused"
    rfl (by decide) rfl).1

/-! ## Claim C9: the end-of-run summary -/

theorem lexLe_total : ∀ l1 l2 : List Char, lexLe l1 l2 = true ∨ lexLe l2 l1 = true := by
  intro l1
  induction l1 with
  | nil => intro l2; exact Or.inl rfl
  | cons a as ih =>
    intro l2
    cases l2 with
    | nil => exact Or.inr rfl
    | cons b bs =>
      simp only [lexLe]
      rcases Nat.lt_trichotomy a.toNat b.toNat with h | h | h
      · rw [if_pos h]
        exact Or.inl rfl
      · rw [if_neg (by omega), if_pos h, if_neg (by omega), if_pos h.symm]
        exact ih bs
      · rw [if_pos h]
        exact Or.inr rfl

theorem lexLe_trans : ∀ l1 l2 l3 : List Char, lexLe l1 l2 = true →
    lexLe l2 l3 = true → lexLe l1 l3 = true := by
  intro l1
  induction l1 with
  | nil => intro l2 l3 _ _; rfl
  | cons a as ih =>
    intro l2 l3 h12 h23
    cases l2 with
    | nil => simp [lexLe] at h12
    | cons b bs =>
      cases l3 with
      | nil => simp [lexLe] at h23
      | cons c cs =>
        simp only [lexLe] at h12 h23 ⊢
        by_cases hab : a.toNat < b.toNat
        · by_cases hbc : b.toNat < c.toNat
          · rw [if_pos (by omega)]
          · rw [if_neg hbc] at h23
            by_cases hbc2 : b.toNat = c.toNat
            · rw [if_pos (by omega)]
            · rw [if_neg hbc2] at h23
              exact absurd h23 (by decide)
        · rw [if_neg hab] at h12
          by_cases hab2 : a.toNat = b.toNat
          · rw [if_pos hab2] at h12
            by_cases hbc : b.toNat < c.toNat
            · rw [if_pos (by omega)]
            · rw [if_neg hbc] at h23
              by_cases hbc2 : b.toNat = c.toNat
              · rw [if_neg (by omega), if_pos (by omega)]
                rw [if_pos hbc2] at h23
                exact ih bs cs h12 h23
              · rw [if_neg hbc2] at h23
                exact absurd h23 (by decide)
          · rw [if_neg hab2] at h12
            exact absurd h12 (by decide)

theorem strLe_total (a b : String) : strLe a b = true ∨ strLe b a = true :=
  lexLe_total a.toList b.toList

theorem strLe_trans {a b c : String} (h1 : strLe a b = true)
    (h2 : strLe b c = true) : strLe a c = true :=
  lexLe_trans _ _ _ h1 h2

theorem mem_insertLe {x z : String} : ∀ l : List String,
    z ∈ insertLe x l → z = x ∨ z ∈ l := by
  intro l
  induction l with
  | nil =>
    intro h
    simp only [insertLe, List.mem_singleton] at h
    exact Or.inl h
  | cons y ys ih =>
    intro h
    simp only [insertLe] at h
    by_cases hy : strLe y x
    · rw [if_pos hy] at h
      rcases List.mem_cons.mp h with h1 | h1
      · exact Or.inr (by rw [h1]; exact List.mem_cons_self _ _)
      · rcases ih h1 with h2 | h2
        · exact Or.inl h2
        · exact Or.inr (List.mem_cons_of_mem _ h2)
    · rw [if_neg hy] at h
      rcases List.mem_cons.mp h with h1 | h1
      · exact Or.inl h1
      · exact Or.inr h1

theorem insertLe_perm (x : String) : ∀ l : List String,
    (insertLe x l).Perm (x :: l) := by
  intro l
  induction l with
  | nil => exact List.Perm.refl _
  | cons y ys ih =>
    simp only [insertLe]
    by_cases hy : strLe y x
    · rw [if_pos hy]
      exact (ih.cons y).trans (List.Perm.swap x y ys)
    · rw [if_neg hy]

theorem insertionSort_perm : ∀ l : List String, (insertionSort l).Perm l := by
  intro l
  induction l with
  | nil => exact List.Perm.refl _
  | cons x xs ih =>
    exact (insertLe_perm x (insertionSort xs)).trans (ih.cons x)

theorem insertLe_sorted {x : String} : ∀ {l : List String},
    List.Pairwise (fun a b => strLe a b = true) l →
    List.Pairwise (fun a b => strLe a b = true) (insertLe x l) := by
  intro l
  induction l with
  | nil => intro _; simp [insertLe]
  | cons y ys ih =>
    intro hp
    simp only [insertLe]
    rcases List.pairwise_cons.mp hp with ⟨hy, hys⟩
    by_cases hyx : strLe y x
    · rw [if_pos hyx]
      refine List.pairwise_cons.mpr ⟨?_, ih hys⟩
      intro z hz
      rcases mem_insertLe _ hz with h1 | h1
      · rw [h1]; exact hyx
      · exact hy z h1
    · rw [if_neg hyx]
      have hxy : strLe x y = true := by
        rcases strLe_total x y with h2 | h2
        · exact h2
        · exact absurd h2 hyx
      refine List.pairwise_cons.mpr ⟨?_, hp⟩
      intro z hz
      rcases List.mem_cons.mp hz with h1 | h1
      · rw [h1]; exact hxy
      · exact strLe_trans hxy (hy z h1)

theorem insertionSort_sorted : ∀ l : List String,
    List.Pairwise (fun a b => strLe a b = true) (insertionSort l) := by
  intro l
  induction l with
  | nil => simp [insertionSort]
  | cons x xs ih => exact insertLe_sorted ih

/-- C9 is refuted as stated: a run of `generate_articles` whose listing
returns zero records exits early; its whole output is the five startup
lines — no newly-written count is printed and nothing is enumerated. -/
theorem c9_counterexample :
    (generate_articles envEmptyList []).2 = true ∧
    (generate_articles envEmptyList []).1.out =
      ["🚀 开始从Gitee Issues生成Jekyll文章...", eqLine,
       "正在获取 aywlzj/aywlzj.gitee.io 的所有issues...", "成功获取 0 个issues",
       "没有获取到任何issues，程序退出"] ∧
    List.filter (fun s => s.toList.head? = some '🎉')
      (generate_articles envEmptyList []).1.out = [] := by
  refine ⟨rfl, rfl, ?_⟩
  decide

/-- C9 (amended): at the end of every run that fetched at least one record
and was aborted by no malformed timestamp, the total newly-written count
line is printed, then the save-location line, then (when any `.md` file is
present) the enumeration of the destination's `.md` files sorted by name
(the printed order is a sorted permutation of the directory's `.md`
names). -/
theorem c9_summary_after_successful_run (env : Env) (fs0 : List (String × String))
    (hne : (get_all_issues env).1 ≠ [])
    (hok : (generate_articles env fs0).2 = true) :
    ∃ pre : List String,
      (generate_articles env fs0).1.out = pre ++
        ("\n" ++ eqLine) ::
        ("🎉 文章生成完成！共生成 " ++ natStr (generate_articles env fs0).1.count ++
          " 篇文章") ::
        ("📁 文章保存位置: " ++ posts_dir) ::
        mdListing (generate_articles env fs0).1.files ∧
      (sortedMd (generate_articles env fs0).1.files).Perm
        (mdNames (generate_articles env fs0).1.files) ∧
      List.Pairwise (fun a b => strLe a b = true)
        (sortedMd (generate_articles env fs0).1.files) := by
  have hperm : ∀ files : List (String × String),
      (sortedMd files).Perm (mdNames files) := fun files =>
    insertionSort_perm (mdNames files)
  have hsorted : ∀ files : List (String × String),
      List.Pairwise (fun a b => strLe a b = true) (sortedMd files) := fun files =>
    insertionSort_sorted (mdNames files)
  by_cases hempty : (get_all_issues env).1.isEmpty
  · exact absurd (List.isEmpty_iff.mp hempty) hne
  · unfold generate_articles at hok ⊢
    rw [if_neg hempty] at hok ⊢
    simp only [] at hok ⊢
    by_cases hflag : (runLoop env (get_all_issues env).1
        { files := fs0, count := 0,
          out := ["🚀 开始从Gitee Issues生成Jekyll文章...", eqLine] ++
            (get_all_issues env).2 }).2
    · rw [if_pos hflag]
      refine ⟨(runLoop env (get_all_issues env).1
        { files := fs0, count := 0,
          out := ["🚀 开始从Gitee Issues生成Jekyll文章...", eqLine] ++
            (get_all_issues env).2 }).1.out, ?_, hperm _, hsorted _⟩
      simp [List.append_assoc]
    · rw [if_neg hflag] at hok
      exact absurd hok hflag

/-- Witness for the amended C9 at a one-record environment. -/
theorem c9_witness :
    ∃ pre : List String,
      (generate_articles envOne []).1.out = pre ++
        ("\n" ++ eqLine) ::
        ("🎉 文章生成完成！共生成 " ++ natStr (generate_articles envOne []).1.count ++
          " 篇文章") ::
        ("📁 文章保存位置: " ++ posts_dir) ::
        mdListing (generate_articles envOne []).1.files ∧
      (sortedMd (generate_articles envOne []).1.files).Perm
        (mdNames (generate_articles envOne []).1.files) ∧
      List.Pairwise (fun a b => strLe a b = true)
        (sortedMd (generate_articles envOne []).1.files) :=
  c9_summary_after_successful_run envOne [] (by decide) (by decide)
